import Mathlib

/-!
Verification of the partition/distribute/compute/gather pattern shared by the
two MPI example programs `phonebook_mpi.cpp` and `matrix_mul_mpi.c`.

The source programs are shallowly embedded: C++ `std::string` values become
`List Char`, `std::vector<Contact>` becomes `List Contact`, machine integers
become `Nat`/`Int` (the quantities involved are small counts and indices; no
claim concerns overflow), and the blocking MPI transfers become pure functions
from the payload the sender computes to the payload the receiver observes.
-/

namespace PPLab

/-! ## Partition planner (phonebook_mpi.cpp, lines 108-124)

The coordinator computes `chunk = (total + size - 1) / size` (ceiling
division) and hands rank `i` the index range `[i*chunk, (i+1)*chunk)`;
`vector_to_string` clips the upper end at the dataset size, so the
effective range of rank `i` is `[i*chunk, min ((i+1)*chunk) total)`. -/

/-- `chunk = (total + size - 1) / size` from line 110 of phonebook_mpi.cpp. -/
def chunkOf (total size : Nat) : Nat := (total + size - 1) / size

/-- Start of rank `i`'s index range: `i * chunk` (line 114). -/
def rangeStart (total size i : Nat) : Nat := i * chunkOf total size

/-- End (exclusive) of rank `i`'s effective index range:
`min ((i+1)*chunk) total` (lines 42 and 114). -/
def rangeFin (total size i : Nat) : Nat := min ((i + 1) * chunkOf total size) total

/-- Membership of index `x` in rank `i`'s range. -/
def inRange (total size i x : Nat) : Prop :=
  rangeStart total size i ≤ x ∧ x < rangeFin total size i

instance (total size i x : Nat) : Decidable (inRange total size i x) := by
  unfold inRange; infer_instance

/-- Number of records rank `i` receives (the range is empty when the start
already lies past the clipped end; `Nat` subtraction truncates at 0 exactly
as the loop in `vector_to_string` produces nothing then). -/
def blockLen (total size i : Nat) : Nat :=
  rangeFin total size i - rangeStart total size i

theorem total_le_size_mul_chunk (total size : Nat) (hS : 1 ≤ size) :
    total ≤ size * chunkOf total size := by
  unfold chunkOf
  have h := Nat.div_add_mod (total + size - 1) size
  have hm : (total + size - 1) % size < size := Nat.mod_lt _ hS
  omega

theorem chunk_pos (total size : Nat) (hS : 1 ≤ size) (hT : 0 < total) :
    0 < chunkOf total size := by
  have h := total_le_size_mul_chunk total size hS
  by_contra hc
  have : chunkOf total size = 0 := by omega
  rw [this, Nat.mul_zero] at h
  omega

/-- Claim C1: tolerant partitioning. For every total record count `T ≥ 0` and
participant count `S ≥ 1`, with `chunk = ceil(T/S)`, the `S` ranges
`[i*chunk, min ((i+1)*chunk) T)` tile `[0, T)` exactly once — every index
below `T` lies in exactly one rank's range, no range reaches outside `[0, T)`,
and the range starts are in rank order. -/
theorem tolerant_partition_tiles (total size : Nat) (hS : 1 ≤ size) :
    (∀ x, x < total ↔ ∃ i, i < size ∧ inRange total size i x) ∧
    (∀ i j x, inRange total size i x → inRange total size j x → i = j) ∧
    (∀ i, rangeStart total size i ≤ rangeStart total size (i + 1)) := by
  set c := chunkOf total size with hc
  have hTc : total ≤ size * c := total_le_size_mul_chunk total size hS
  refine ⟨?_, ?_, ?_⟩
  · intro x
    constructor
    · intro hx
      have hcpos : 0 < c := chunk_pos total size hS (by omega)
      refine ⟨x / c, ?_, ?_, ?_⟩
      · exact (Nat.div_lt_iff_lt_mul hcpos).mpr (lt_of_lt_of_le hx hTc)
      · exact Nat.div_mul_le_self x c
      · have h1 : x < (x / c + 1) * c := by
          have := Nat.lt_mul_div_succ x hcpos
          rwa [Nat.mul_comm] at this
        exact lt_min h1 hx
    · rintro ⟨i, _, _, hlt⟩
      exact lt_of_lt_of_le hlt (min_le_right _ _)
  · intro i j x ⟨hi1, hi2⟩ ⟨hj1, hj2⟩
    have hi2' : x < (i + 1) * c := lt_of_lt_of_le hi2 (min_le_left _ _)
    have hj2' : x < (j + 1) * c := lt_of_lt_of_le hj2 (min_le_left _ _)
    have hij : i < j + 1 := by
      have : i * c < (j + 1) * c := lt_of_le_of_lt hi1 hj2'
      exact Nat.lt_of_mul_lt_mul_right this
    have hji : j < i + 1 := by
      have : j * c < (i + 1) * c := lt_of_le_of_lt hj1 hi2'
      exact Nat.lt_of_mul_lt_mul_right this
    omega
  · intro i
    unfold rangeStart
    exact Nat.mul_le_mul_right _ (Nat.le_succ i)

/-- Witness for C1 at `T = 7`, `S = 3`. -/
theorem tolerant_partition_tiles_witness :
    (1 ≤ 3) ∧
    ((∀ x, x < 7 ↔ ∃ i, i < 3 ∧ inRange 7 3 i x) ∧
     (∀ i j x, inRange 7 3 i x → inRange 7 3 j x → i = j) ∧
     (∀ i, rangeStart 7 3 i ≤ rangeStart 7 3 (i + 1))) :=
  ⟨by decide, tolerant_partition_tiles 7 3 (by decide)⟩

/-- Claim C2, counterexample: at `T = 1`, `S = 3` (chunk = 1) the middle rank
`i = 1 < S - 1` already gets an empty block, so the last rank is not the only
rank that may be shorter than `chunk`; moreover the last rank's length is 0,
not the integer `T - (S-1)*chunk = -1`. -/
theorem last_block_only_short_counterexample :
    (1 : Nat) < 3 - 1 ∧
    blockLen 1 3 1 ≠ chunkOf 1 3 ∧
    (blockLen 1 3 2 : Int) ≠ (1 : Int) - (3 - 1) * (chunkOf 1 3 : Int) := by
  decide

/-- Claim C2, amended: under tolerant partitioning with `T ≥ 0`, `S ≥ 1`, the
last rank's block length is `T - (S-1)*chunk` truncated at zero (`Nat`
subtraction), and every earlier rank `i < S - 1` has block length
`min chunk (T - i*chunk)` — exactly `chunk` while data remains, but shorter or
empty for every rank whose range starts at or past the end of the data, so
the last rank is not the only one that may be short. -/
theorem block_lengths (total size : Nat) (hS : 1 ≤ size) :
    blockLen total size (size - 1) = total - (size - 1) * chunkOf total size ∧
    ∀ i, i < size - 1 →
      blockLen total size i = min (chunkOf total size) (total - i * chunkOf total size) := by
  have hTc : total ≤ size * chunkOf total size := total_le_size_mul_chunk total size hS
  set c := chunkOf total size with hc
  constructor
  · unfold blockLen rangeFin rangeStart
    rw [← hc]
    have hs : size - 1 + 1 = size := by omega
    rw [hs]
    omega
  · intro i _
    unfold blockLen rangeFin rangeStart
    rw [← hc]
    have : (i + 1) * c = i * c + c := by ring
    omega

/-- Witness for the amended C2 at `T = 7`, `S = 3`. -/
theorem block_lengths_witness :
    (1 ≤ 3) ∧
    (blockLen 7 3 (3 - 1) = 7 - (3 - 1) * chunkOf 7 3 ∧
     ∀ i, i < 3 - 1 → blockLen 7 3 i = min (chunkOf 7 3) (7 - i * chunkOf 7 3)) :=
  ⟨by decide, block_lengths 7 3 (by decide)⟩

/-! ## Strict partitioning validation (matrix_mul_mpi.c, lines 41-45)

`matrix_mul_mpi.c` checks `K % size != 0` right after broadcasting the
dimensions and, if the check fails, returns exit code 1 without reaching
`MPI_Scatter` (line 74) or the multiplication loop (lines 81-91). The
control flow of `main` on each rank is embedded as a record of the exit
code and of which phases were reached. -/

structure MatrixRunTrace where
  exitCode : Nat
  scatterExecuted : Bool
  computeExecuted : Bool
  gatherExecuted : Bool
deriving DecidableEq, Repr

/-- Control-flow skeleton of `main` in matrix_mul_mpi.c (identical on every
rank, since `K` is broadcast before the check): if `K % size != 0` the run
returns 1 before the scatter; otherwise it scatters, computes and gathers
and returns 0. -/
def matrix_main_trace (K size : Nat) : MatrixRunTrace :=
  if K % size ≠ 0 then
    { exitCode := 1, scatterExecuted := false, computeExecuted := false,
      gatherExecuted := false }
  else
    { exitCode := 0, scatterExecuted := true, computeExecuted := true,
      gatherExecuted := true }

/-- Claim C3: under the strict policy, a non-divisible `(T, S)` pair makes the
run exit with code 1 before any distribution or compute step: no scatter and
no local multiplication executes in that run. -/
theorem strict_nondivisible_aborts (K size : Nat) (h : K % size ≠ 0) :
    (matrix_main_trace K size).exitCode = 1 ∧
    (matrix_main_trace K size).scatterExecuted = false ∧
    (matrix_main_trace K size).computeExecuted = false := by
  unfold matrix_main_trace
  rw [if_pos h]
  exact ⟨rfl, rfl, rfl⟩

/-- Witness for C3 at `K = 100`, `S = 3`. -/
theorem strict_nondivisible_aborts_witness :
    (100 % 3 ≠ 0) ∧
    ((matrix_main_trace 100 3).exitCode = 1 ∧
     (matrix_main_trace 100 3).scatterExecuted = false ∧
     (matrix_main_trace 100 3).computeExecuted = false) :=
  ⟨by decide, strict_nondivisible_aborts 100 3 (by decide)⟩

/-! ## Strings and contacts (phonebook_mpi.cpp)

C++ `std::string` is embedded as `List Char`; a `Contact` keeps its two
fields. `std::string::find` of a single character becomes `findChar`,
`std::string::find` of a string becomes `occursIn`, `std::getline` over a
string becomes `splitOnNl` (the final piece of `splitOnNl` is empty exactly
when the text ends in a newline, and empty lines are skipped by every
consumer, which matches `getline`'s end-of-input behaviour). -/

structure Contact where
  name : List Char
  phone : List Char
deriving DecidableEq, Repr

/-- Index of the first occurrence of character `c`, as `line.find(c)`. -/
def findChar (c : Char) : List Char → Option Nat
  | [] => none
  | a :: as => if a = c then some 0 else (findChar c as).map (· + 1)

/-- Split a text at newline characters, as repeated `std::getline`. -/
def splitOnNl : List Char → List (List Char)
  | [] => [[]]
  | a :: as =>
    if a = '\n' then [] :: splitOnNl as
    else
      match splitOnNl as with
      | [] => [[a]]
      | l :: ls => (a :: l) :: ls

/-- Does `needle` occur at the head of `hay`? -/
def startsWith : List Char → List Char → Bool
  | [], _ => true
  | _ :: _, [] => false
  | a :: as, b :: bs => a = b && startsWith as bs

/-- Does `needle` occur anywhere in `hay`? This is
`hay.find(needle) != std::string::npos` (the empty needle always occurs). -/
def occursIn (needle : List Char) : List Char → Bool
  | [] => startsWith needle []
  | b :: bs => startsWith needle (b :: bs) || occursIn needle bs

/-- `q` occurs as a (contiguous) substring of `s`. -/
def SubstringOf (q s : List Char) : Prop := ∃ p r, s = p ++ q ++ r

/-- The line `"name,phone\n"` appended for one contact in
`vector_to_string` (line 43 of phonebook_mpi.cpp). -/
def contactLine (c : Contact) : List Char :=
  c.name ++ [','] ++ c.phone ++ ['\n']

/-- Concatenation of the lines of a whole contact list. -/
def encodeList (cs : List Contact) : List Char :=
  (cs.map contactLine).flatten

/-- `vector_to_string(contacts, start, end)` (lines 40-46): the loop runs
`i` from `start` while `i < min(contacts.size(), end)` and appends
`contacts[i].name + "," + contacts[i].phone + "\n"`. -/
def vector_to_string (contacts : List Contact) (start fin : Nat) : List Char :=
  (List.range' start (min contacts.length fin - start)).foldl
    (fun acc i => acc ++ contactLine (contacts.getD i ⟨[], []⟩)) []

/-- One iteration of the `string_to_contacts` loop (lines 53-58): empty lines
and lines without a comma yield nothing; otherwise the line is split at its
first comma (`substr(0, comma)` / `substr(comma + 1)`). -/
def parseContactLine (line : List Char) : Option Contact :=
  if line = [] then none
  else
    match findChar ',' line with
    | none => none
    | some comma => some ⟨line.take comma, line.drop (comma + 1)⟩

/-- `string_to_contacts(text)` (lines 49-60). -/
def string_to_contacts (text : List Char) : List Contact :=
  (splitOnNl text).filterMap parseContactLine

/-- `check(c, search)` (lines 63-68): emit `"name phone\n"` when the search
term occurs in the name, the empty string otherwise. -/
def check (c : Contact) (search : List Char) : List Char :=
  if occursIn search c.name then c.name ++ [' '] ++ c.phone ++ ['\n'] else []

/-! ## Framed string transfer (phonebook_mpi.cpp, lines 22-37)

`send_string` sends `len = text.size() + 1` and then the `len` bytes of
`text.c_str()` (the text plus its trailing NUL). `receive_string` reads the
length, reads `len` bytes into a buffer and builds `std::string res(buf)`,
which keeps exactly the bytes before the first NUL. MPI delivers the bytes
unchanged, so a matched pair is embedded as a pure function from the sent
text to the received one. -/

/-- The wire image of `send_string`: the length header and the payload bytes
(`text.c_str()`, i.e. the text followed by one NUL terminator). -/
def send_string (text : List Char) : Nat × List Char :=
  (text.length + 1, text ++ ['\x00'])

/-- `receive_string`, applied to a received frame: read `len` bytes, then
construct a C string from the buffer, which stops at the first NUL. -/
def receive_string (len : Nat) (buf : List Char) : List Char :=
  (buf.take len).takeWhile (fun c => c ≠ '\x00')

/-- A matched `send_string`/`receive_string` pair on one channel. -/
def transfer_string (text : List Char) : List Char :=
  receive_string (send_string text).1 (send_string text).2

/-! ## File-input parsing (phonebook_mpi.cpp, lines 71-83)

The loop body of `read_phonebook` for one line: empty lines and lines
without a comma are skipped; otherwise the code pushes
`{line.substr(1, comma - 2), line.substr(comma + 2, line.size() - comma - 3)}`,
which strips the first character, the character before the comma, the
character after the comma and the last character — the quoted file format
`"name","phone"`. `comma` is a C `int`, so `comma - 2` can be negative; a
negative count converts to a huge `size_t` and `substr` then takes the whole
tail, while a start position past the end throws `std::out_of_range`. -/

/-- `s.substr(pos, count)` with `count` a C `int` converted to `size_t`:
negative counts wrap to a value at least the string length. The caller
guards `pos ≤ s.length` (otherwise `substr` throws). -/
def cpp_substr (s : List Char) (pos : Nat) (count : Int) : List Char :=
  (s.drop pos).take (if count < 0 then s.length else count.toNat)

inductive LineOutcome where
  | skipped : LineOutcome
  | parsed : Contact → LineOutcome
  | rangeError : LineOutcome
deriving DecidableEq, Repr

/-- One iteration of the `read_phonebook` loop (lines 75-81). The name
`substr` starts at position 1 ≤ size (the line is non-empty), so only the
phone `substr` can throw, exactly when `comma + 2 > line.size()`. -/
def read_line (line : List Char) : LineOutcome :=
  if line = [] then .skipped
  else
    match findChar ',' line with
    | none => .skipped
    | some comma =>
      if comma + 2 > line.length then .rangeError
      else
        .parsed ⟨cpp_substr line 1 ((comma : Int) - 2),
                 cpp_substr line (comma + 2) ((line.length : Int) - comma - 3)⟩

/-! ## Substring search lemmas -/

theorem startsWith_iff (needle hay : List Char) :
    startsWith needle hay = true ↔ ∃ r, hay = needle ++ r := by
  induction needle generalizing hay with
  | nil => simp [startsWith]
  | cons a as ih =>
    cases hay with
    | nil => simp [startsWith]
    | cons b bs =>
      simp only [startsWith, Bool.and_eq_true, decide_eq_true_eq, ih,
        List.cons_append, List.cons.injEq]
      constructor
      · rintro ⟨hab, r, hr⟩
        exact ⟨r, hab.symm, hr⟩
      · rintro ⟨r, hab, hr⟩
        exact ⟨hab.symm, r, hr⟩

theorem occursIn_iff (needle hay : List Char) :
    occursIn needle hay = true ↔ SubstringOf needle hay := by
  induction hay with
  | nil =>
    simp only [occursIn, startsWith_iff, SubstringOf]
    constructor
    · rintro ⟨r, hr⟩
      exact ⟨[], r, hr⟩
    · rintro ⟨p, r, hr⟩
      refine ⟨p ++ r, ?_⟩
      have hp : p = [] := by
        cases p with
        | nil => rfl
        | cons x xs => simp at hr
      subst hp; simpa using hr
  | cons b bs ih =>
    simp only [occursIn, Bool.or_eq_true, startsWith_iff, ih, SubstringOf]
    constructor
    · rintro (⟨r, hr⟩ | ⟨p, r, hr⟩)
      · exact ⟨[], r, by simpa using hr⟩
      · exact ⟨b :: p, r, by simp [hr]⟩
    · rintro ⟨p, r, hr⟩
      cases p with
      | nil => exact Or.inl ⟨r, by simpa using hr⟩
      | cons x xs =>
        simp only [List.cons_append, List.cons.injEq] at hr
        exact Or.inr ⟨xs, r, hr.2⟩

/-- Claim C8: the search kernel emits `"name phone\n"` exactly when the query
occurs as a contiguous substring of the contact's name (no anchoring, no case
normalization), and emits the empty string otherwise; in particular the
contact `("Bob Marley", "555-1212")` yields a hit for `"Bob"` and nothing
for `"Zed"`. -/
theorem check_emits_iff_substring :
    (∀ name phone q,
      (check ⟨name, phone⟩ q = name ++ [' '] ++ phone ++ ['\n'] ∧ SubstringOf q name) ∨
      (check ⟨name, phone⟩ q = [] ∧ ¬ SubstringOf q name)) ∧
    check ⟨"Bob Marley".toList, "555-1212".toList⟩ "Bob".toList
      = "Bob Marley 555-1212\n".toList ∧
    check ⟨"Bob Marley".toList, "555-1212".toList⟩ "Zed".toList = [] := by
  refine ⟨?_, by decide, by decide⟩
  intro name phone q
  by_cases h : occursIn q name = true
  · exact Or.inl ⟨by simp [check, h], (occursIn_iff q name).mp h⟩
  · refine Or.inr ⟨by simp [check, h], fun hs => h ((occursIn_iff q name).mpr hs)⟩

/-! ## Framed transfer lemmas -/

theorem takeWhile_append_singleton_of_neg (p : Char → Bool) (l : List Char) (x : Char)
    (hx : p x = false) : (l ++ [x]).takeWhile p = l.takeWhile p := by
  induction l with
  | nil => simp [List.takeWhile, hx]
  | cons a as ih =>
    by_cases ha : p a
    · simp [List.takeWhile_cons, ha, ih]
    · simp [List.takeWhile_cons, ha]

theorem transfer_string_eq_takeWhile (text : List Char) :
    transfer_string text = text.takeWhile (fun c => c ≠ '\x00') := by
  unfold transfer_string receive_string send_string
  simp only []
  have hlen : (text ++ ['\x00']).take (text.length + 1) = text ++ ['\x00'] := by
    apply List.take_of_length_le
    simp
  rw [hlen]
  exact takeWhile_append_singleton_of_neg _ text '\x00' (by simp)

theorem transfer_string_id (text : List Char) (h : ('\x00' : Char) ∉ text) :
    transfer_string text = text := by
  rw [transfer_string_eq_takeWhile]
  apply List.takeWhile_eq_self_iff.mpr
  intro c hc
  simp only [ne_eq, decide_eq_true_eq]
  exact fun hcn => h (hcn ▸ hc)

/-- Claim C10: a matched `send_string`/`receive_string` pair returns the sent
string unchanged when it contains no NUL byte, and in general returns exactly
the sent string's longest NUL-free leading segment — the part before the
first embedded NUL. -/
theorem transfer_string_roundtrip (text : List Char) :
    ('\x00' ∉ text → transfer_string text = text) ∧
    transfer_string text = text.takeWhile (fun c => c ≠ '\x00') :=
  ⟨transfer_string_id text, transfer_string_eq_takeWhile text⟩

/-- Witness for C10 at the NUL-free text `"ab"` and, via the second
conjunct, at the NUL-containing text `"a\x00b"`. -/
theorem transfer_string_roundtrip_witness :
    transfer_string "ab".toList = "ab".toList ∧
    transfer_string "a\x00b".toList = "a".toList :=
  ⟨(transfer_string_roundtrip "ab".toList).1 (by decide),
   by rw [(transfer_string_roundtrip "a\x00b".toList).2]; decide⟩

/-! ## File-input parsing: claim C6 -/

/-- Claim C6, counterexample: the unquoted line `"Bob,123"` is not parsed
into the fields `("Bob", "123")`; `read_phonebook` strips the first
character, the character before the comma, the character after the comma and
the last character, producing `("o", "2")`. Quoting is not optional. -/
theorem read_line_unquoted_counterexample :
    read_line "Bob,123".toList ≠ LineOutcome.parsed ⟨"Bob".toList, "123".toList⟩ ∧
    read_line "Bob,123".toList = LineOutcome.parsed ⟨"o".toList, "2".toList⟩ := by
  constructor
  · decide
  · decide

theorem findChar_eq_none_iff (c : Char) (l : List Char) :
    findChar c l = none ↔ c ∉ l := by
  induction l with
  | nil => simp [findChar]
  | cons a as ih =>
    by_cases h : a = c
    · simp [findChar, h]
    · have h' : ¬ c = a := fun hc => h hc.symm
      simp [findChar, h, ih, Option.map_eq_none', h']

theorem findChar_append_cons (c : Char) (p r : List Char) (hp : c ∉ p) :
    findChar c (p ++ c :: r) = some p.length := by
  induction p with
  | nil => simp [findChar]
  | cons a as ih =>
    have ha : ¬ a = c := fun h => hp (h ▸ List.mem_cons_self a as)
    have has : c ∉ as := fun h => hp (List.mem_cons_of_mem a h)
    simp [findChar, ha, ih has]

/-- Claim C6, amended: lines containing no comma are skipped silently, but
fields are extracted correctly only in the quoted form `"name","phone"`;
for a line in that quoted form (with a comma-free name) `read_phonebook`
recovers exactly the two fields, while an unquoted line has its fields
mangled (see the counterexample). -/
theorem read_line_quoted_or_skipped (line name phone : List Char) :
    (findChar ',' line = none → read_line line = LineOutcome.skipped) ∧
    ((',' : Char) ∉ name →
      read_line ('"' :: name ++ '"' :: ',' :: '"' :: phone ++ ['"'])
        = LineOutcome.parsed ⟨name, phone⟩) := by
  constructor
  · intro h
    unfold read_line
    by_cases hl : line = []
    · simp [hl]
    · simp [hl, h]
  · intro hn
    have hfind : findChar ',' ('"' :: name ++ '"' :: ',' :: '"' :: phone ++ ['"'])
        = some (name.length + 2) := by
      have hp : (',' : Char) ∉ '"' :: name ++ ['"'] := by
        intro hm
        rcases List.mem_cons.mp hm with h1 | h2
        · exact absurd h1.symm (by decide)
        · rcases List.mem_append.mp h2 with h3 | h4
          · exact hn h3
          · exact absurd (List.mem_singleton.mp h4).symm (by decide)
      have := findChar_append_cons ',' ('"' :: name ++ ['"'])
        ('"' :: phone ++ ['"']) hp
      simpa [List.append_assoc] using this
    unfold read_line
    have hne : '"' :: name ++ '"' :: ',' :: '"' :: phone ++ ['"'] ≠ [] := by simp
    rw [if_neg hne, hfind]
    dsimp only
    have hlen : ('"' :: name ++ '"' :: ',' :: '"' :: phone ++ ['"']).length
        = name.length + phone.length + 5 := by simp; omega
    rw [if_neg (show ¬ name.length + 2 + 2
        > ('"' :: name ++ '"' :: ',' :: '"' :: phone ++ ['"']).length by
      rw [hlen]; omega)]
    congr 1
    have hdrop1 : ('"' :: name ++ '"' :: ',' :: '"' :: phone ++ ['"']).drop 1
        = name ++ '"' :: ',' :: '"' :: phone ++ ['"'] := by simp
    have hname : cpp_substr ('"' :: name ++ '"' :: ',' :: '"' :: phone ++ ['"'])
        1 ((name.length + 2 : Nat) - 2 : Int) = name := by
      unfold cpp_substr
      rw [hdrop1, if_neg (by omega)]
      have : ((name.length + 2 : Nat) - 2 : Int).toNat = name.length := by omega
      rw [this]
      simp
    have hphone : cpp_substr ('"' :: name ++ '"' :: ',' :: '"' :: phone ++ ['"'])
        (name.length + 2 + 2)
        (((('"' :: name ++ '"' :: ',' :: '"' :: phone ++ ['"']).length : Nat) : Int)
          - ((name.length + 2 : Nat) : Int) - 3) = phone := by
      unfold cpp_substr
      rw [hlen]
      have hcnt : (((name.length + phone.length + 5 : Nat) : Int)
          - ((name.length + 2 : Nat) : Int) - 3) = (phone.length : Int) := by
        push_cast; ring
      rw [hcnt, if_neg (by omega)]
      have hdrop : ('"' :: name ++ '"' :: ',' :: '"' :: phone ++ ['"']).drop
          (name.length + 2 + 2) = phone ++ ['"'] := by
        have : '"' :: name ++ '"' :: ',' :: '"' :: phone ++ ['"']
            = ('"' :: name ++ ['"', ',', '"']) ++ (phone ++ ['"']) := by simp
        rw [this]
        have hl4 : ('"' :: name ++ ['"', ',', '"']).length = name.length + 2 + 2 := by
          simp
        rw [← hl4]
        exact List.drop_left _ _
      rw [hdrop]
      have : ((phone.length : Int)).toNat = phone.length := by omega
      rw [this]
      exact List.take_left phone ['"']
    rw [hname, hphone]

/-- Witness for the amended C6: the comma-free line `"Bob"` is skipped and
the quoted line `"\"Bob\",\"123\""` parses to `("Bob", "123")`. -/
theorem read_line_quoted_or_skipped_witness :
    read_line "Bob".toList = LineOutcome.skipped ∧
    read_line ('"' :: "Bob".toList ++ '"' :: ',' :: '"' :: "123".toList ++ ['"'])
      = LineOutcome.parsed ⟨"Bob".toList, "123".toList⟩ :=
  ⟨(read_line_quoted_or_skipped "Bob".toList [] []).1 (by decide),
   (read_line_quoted_or_skipped [] "Bob".toList "123".toList).2 (by decide)⟩

/-! ## Encode/decode round trip (claim C5) -/

/-- A contact survives the wire format: no comma or newline in either field.
(The code only needs the name comma-free, but the claim's proviso excludes
commas from both fields.) -/
def WellFormed (c : Contact) : Prop :=
  (',' : Char) ∉ c.name ∧ (',' : Char) ∉ c.phone ∧
  ('\n' : Char) ∉ c.name ∧ ('\n' : Char) ∉ c.phone

instance (c : Contact) : Decidable (WellFormed c) := by
  unfold WellFormed; infer_instance

theorem splitOnNl_append_newline (l rest : List Char) (hl : ('\n' : Char) ∉ l) :
    splitOnNl (l ++ '\n' :: rest) = l :: splitOnNl rest := by
  induction l with
  | nil => simp [splitOnNl]
  | cons a as ih =>
    have ha : ¬ a = '\n' := fun h => hl (h ▸ List.mem_cons_self a as)
    have has : ('\n' : Char) ∉ as := fun h => hl (List.mem_cons_of_mem a h)
    simp only [List.cons_append, splitOnNl, if_neg ha, List.append_eq]
    rw [ih has]

theorem parseContactLine_sep (name phone : List Char) (hn : (',' : Char) ∉ name) :
    parseContactLine (name ++ ',' :: phone) = some ⟨name, phone⟩ := by
  unfold parseContactLine
  have hne : name ++ ',' :: phone ≠ [] := by simp
  rw [if_neg hne, findChar_append_cons ',' name phone hn]
  dsimp only
  have htake : (name ++ ',' :: phone).take name.length = name := by simp
  have hdrop : (name ++ ',' :: phone).drop (name.length + 1) = phone := by
    have : name ++ ',' :: phone = (name ++ [',']) ++ phone := by simp
    rw [this]
    have hl : (name ++ [',']).length = name.length + 1 := by simp
    rw [← hl]
    exact List.drop_left _ _
  rw [htake, hdrop]

/-- A contact whose encoded line decodes back to itself: the name is
comma-free (so the first comma of the line is the separator) and neither
field contains a newline (so the line survives `getline`). The phone may
contain commas. -/
def LineSafe (c : Contact) : Prop :=
  (',' : Char) ∉ c.name ∧ ('\n' : Char) ∉ c.name ∧ ('\n' : Char) ∉ c.phone

instance (c : Contact) : Decidable (LineSafe c) := by
  unfold LineSafe; infer_instance

theorem string_to_contacts_encodeList (cs : List Contact)
    (h : ∀ c ∈ cs, LineSafe c) :
    string_to_contacts (encodeList cs) = cs := by
  induction cs with
  | nil => simp [string_to_contacts, encodeList, splitOnNl, parseContactLine]
  | cons c cs ih =>
    obtain ⟨hc, hcs⟩ : LineSafe c ∧ ∀ x ∈ cs, LineSafe x :=
      ⟨h c (List.mem_cons_self c cs), fun x hx => h x (List.mem_cons_of_mem c hx)⟩
    have henc : encodeList (c :: cs)
        = (c.name ++ ',' :: c.phone) ++ '\n' :: encodeList cs := by
      simp [encodeList, contactLine]
    have hnl : ('\n' : Char) ∉ c.name ++ ',' :: c.phone := by
      intro hm
      rcases List.mem_append.mp hm with h1 | h2
      · exact hc.2.1 h1
      · rcases List.mem_cons.mp h2 with h3 | h4
        · exact absurd h3 (by decide)
        · exact hc.2.2 h4
    unfold string_to_contacts
    rw [henc, splitOnNl_append_newline _ _ hnl]
    rw [List.filterMap_cons]
    rw [parseContactLine_sep c.name c.phone hc.1]
    have : (splitOnNl (encodeList cs)).filterMap parseContactLine = cs :=
      ih hcs
    rw [this]

theorem foldl_range'_contactLine (cs : List Contact) :
    ∀ (n s : Nat) (acc : List Char), s + n ≤ cs.length →
      (List.range' s n).foldl
        (fun a i => a ++ contactLine (cs.getD i ⟨[], []⟩)) acc
        = acc ++ encodeList ((cs.drop s).take n) := by
  intro n
  induction n with
  | zero => intro s acc _; simp [encodeList]
  | succ n ih =>
    intro s acc hle
    have hs : s < cs.length := by omega
    rw [List.range'_succ, List.foldl_cons]
    rw [ih (s + 1) _ (by omega)]
    have hdrop : cs.drop s = cs[s] :: cs.drop (s + 1) :=
      List.drop_eq_getElem_cons hs
    have hgetD : cs.getD s ⟨[], []⟩ = cs[s] := List.getD_eq_getElem cs _ hs
    rw [hgetD, hdrop, List.take_succ_cons]
    simp [encodeList]

/-- `vector_to_string contacts start end` is exactly the encoding of the
slice of `contacts` at indices `[start, min (contacts.length) end)`: its
output is derived from those records and nothing else. -/
theorem vector_to_string_eq_encode_slice (cs : List Contact) (s f : Nat) :
    vector_to_string cs s f
      = encodeList ((cs.drop s).take (min cs.length f - s)) := by
  by_cases hs : s ≤ cs.length
  · unfold vector_to_string
    have := foldl_range'_contactLine cs (min cs.length f - s) s []
      (by have := min_le_left cs.length f; omega)
    rw [this]
    simp
  · unfold vector_to_string
    have hn : min cs.length f - s = 0 := by
      have := min_le_left cs.length f; omega
    rw [hn]
    simp [encodeList]

theorem vector_to_string_full (cs : List Contact) :
    vector_to_string cs 0 cs.length = encodeList cs := by
  rw [vector_to_string_eq_encode_slice]
  simp

/-- Claim C5: for contact lists none of whose fields contains a comma or a
newline, encoding (`vector_to_string` over the whole index range, one
`"name,phone\n"` line per record) followed by decoding
(`string_to_contacts`) returns the original list; and the example list
`[("Ann","123"), ("Bob","456")]` encodes to `"Ann,123\nBob,456\n"` and
decodes back to itself. -/
theorem encode_decode_roundtrip :
    (∀ cs : List Contact, (∀ c ∈ cs, WellFormed c) →
      string_to_contacts (vector_to_string cs 0 cs.length) = cs) ∧
    vector_to_string [⟨"Ann".toList, "123".toList⟩, ⟨"Bob".toList, "456".toList⟩] 0 2
      = "Ann,123\nBob,456\n".toList ∧
    string_to_contacts "Ann,123\nBob,456\n".toList
      = [⟨"Ann".toList, "123".toList⟩, ⟨"Bob".toList, "456".toList⟩] := by
  refine ⟨?_, by decide, by decide⟩
  intro cs h
  rw [vector_to_string_full, string_to_contacts_encodeList cs
    (fun c hc => ⟨(h c hc).1, (h c hc).2.2.1, (h c hc).2.2.2⟩)]

/-- Witness for C5 at the example list from the spec. -/
theorem encode_decode_roundtrip_witness :
    string_to_contacts
      (vector_to_string [⟨"Ann".toList, "123".toList⟩, ⟨"Bob".toList, "456".toList⟩] 0
        ([⟨"Ann".toList, "123".toList⟩, ⟨"Bob".toList, "456".toList⟩] : List Contact).length)
      = [⟨"Ann".toList, "123".toList⟩, ⟨"Bob".toList, "456".toList⟩] :=
  encode_decode_roundtrip.1 _ (by decide)

/-! ## Partition visibility (claim C9) -/

/-- The text the coordinator sends to rank `i` (line 114 of
phonebook_mpi.cpp): the encoding of the index range
`[i*chunk, (i+1)*chunk)` of its contact vector. -/
def coordinatorSend (contacts : List Contact) (size i : Nat) : List Char :=
  vector_to_string contacts (i * chunkOf contacts.length size)
    ((i + 1) * chunkOf contacts.length size)

/-- What worker `i` observes (line 143): the received side of the framed
transfer of `coordinatorSend`. -/
def workerReceived (contacts : List Contact) (size i : Nat) : List Char :=
  transfer_string (coordinatorSend contacts size i)

/-- The records of rank `i`'s assigned partition
`[i*chunk, min ((i+1)*chunk) T)`. -/
def partitionSlice (contacts : List Contact) (size i : Nat) : List Contact :=
  (contacts.drop (rangeStart contacts.length size i)).take
    (blockLen contacts.length size i)

/-- Claim C9: the data a worker rank `i ≥ 1` receives from the coordinator is
a function of the records in its own assigned partition
`[i*chunk, min ((i+1)*chunk) T)` and of nothing else: it equals the framed
transfer of the encoding of exactly that record slice. No worker observes
records outside its own partition. -/
theorem worker_sees_only_its_partition (contacts : List Contact) (size i : Nat)
    (_h1 : 1 ≤ i) (_h2 : i < size) :
    workerReceived contacts size i
      = transfer_string (encodeList (partitionSlice contacts size i)) := by
  unfold workerReceived coordinatorSend partitionSlice
  rw [vector_to_string_eq_encode_slice]
  unfold blockLen rangeFin rangeStart
  rw [min_comm]

/-- Witness for C9 at a two-contact phonebook, `S = 2`, worker rank 1. -/
theorem worker_sees_only_its_partition_witness :
    workerReceived [⟨"Ann".toList, "123".toList⟩, ⟨"Bob".toList, "456".toList⟩] 2 1
      = transfer_string (encodeList
          (partitionSlice [⟨"Ann".toList, "123".toList⟩, ⟨"Bob".toList, "456".toList⟩] 2 1)) :=
  worker_sees_only_its_partition _ 2 1 (by decide) (by decide)

/-! ## Matrix kernel (matrix_mul_mpi.c, lines 81-91)

One result element: `localR[k][i][j]` starts at 0, accumulates
`(A[i][l] * B[l][j]) % 100` over the shared dimension `l < N`, and is
finally reduced `% 100`. Matrices are embedded as index functions. -/

/-- The inner two loops of the kernel for a fixed pair of matrices. -/
def kernelEntry (A B : Nat → Nat → Nat) (N i j : Nat) : Nat :=
  ((List.range N).foldl (fun acc l => acc + (A i l * B l j) % 100) 0) % 100

theorem kernelEntry_foldl_eq_sum (A B : Nat → Nat → Nat) (i j : Nat) :
    ∀ N : Nat, (List.range N).foldl (fun acc l => acc + (A i l * B l j) % 100) 0
      = ∑ l ∈ Finset.range N, (A i l * B l j) % 100 := by
  intro N
  induction N with
  | zero => simp
  | succ n ih =>
    rw [List.range_succ, List.foldl_append, ih, Finset.sum_range_succ]
    simp

/-- Claim C7: each matrix-kernel result element is the dot product over the
shared dimension with every product term reduced modulo 100 before summation
and the final sum reduced modulo 100; it always lies in `[0, 99]`; and for
the 1×1×1×1 shape with elements `A = 7`, `B = 13` the result is
`(7*13) % 100 % 100 = 91`. -/
theorem kernel_entry_mod_100 :
    (∀ (A B : Nat → Nat → Nat) (N i j : Nat),
      (∀ a b, A a b ≤ 99 ∧ B a b ≤ 99) →
      kernelEntry A B N i j = (∑ l ∈ Finset.range N, (A i l * B l j) % 100) % 100 ∧
      kernelEntry A B N i j ≤ 99) ∧
    kernelEntry (fun _ _ => 7) (fun _ _ => 13) 1 0 0 = 91 := by
  constructor
  · intro A B N i j _
    constructor
    · unfold kernelEntry
      rw [kernelEntry_foldl_eq_sum]
    · unfold kernelEntry
      have : ((List.range N).foldl (fun acc l => acc + (A i l * B l j) % 100) 0) % 100
          < 100 := Nat.mod_lt _ (by omega)
      omega
  · decide

/-- Witness for C7 at the constant matrices `A = 7`, `B = 13`, `N = 2`. -/
theorem kernel_entry_mod_100_witness :
    kernelEntry (fun _ _ => 7) (fun _ _ => 13) 2 0 0
        = (∑ _l ∈ Finset.range 2, ((7 : Nat) * 13) % 100) % 100 ∧
    kernelEntry (fun _ _ => 7) (fun _ _ => 13) 2 0 0 ≤ 99 :=
  kernel_entry_mod_100.1 (fun _ _ => 7) (fun _ _ => 13) 2 0 0
    (fun _ _ => ⟨by simp, by simp⟩)

/-! ## Partition invariance (claim C4)

Matrix side (matrix_mul_mpi.c, lines 74-97): `MPI_Scatter` hands rank `b`
the `K/size` consecutive matrix pairs starting at `b * (K/size)`, each rank
runs the kernel on its block, and `MPI_Gather` reassembles the blocks in
rank order, so the gathered element at global index `k` comes from block
`k / chunk`, local index `k % chunk`. Matrices are index functions, so a
block is the composition with the index shift.

Search side (phonebook_mpi.cpp, lines 113-131): rank 0 searches indexes
`[0, min(chunk, total))` of its own vector, every other rank searches the
contacts parsed from its received framed text, and rank 0 appends the
workers' results in rank order after its own. -/

/-- The sub-array of matrices rank `b` receives from `MPI_Scatter`. -/
def scatterBlock (M : Nat → Nat → Nat → Nat) (chunk b : Nat) : Nat → Nat → Nat → Nat :=
  fun k => M (b * chunk + k)

/-- The kernel run once over the whole unsplit dataset. -/
def fullMatResult (A B : Nat → Nat → Nat → Nat) (N : Nat) : Nat → Nat → Nat → Nat :=
  fun k => kernelEntry (A k) (B k) N

/-- Rank `b`'s local result (`localR`). -/
def localMatResult (A B : Nat → Nat → Nat → Nat) (N chunk b : Nat) : Nat → Nat → Nat → Nat :=
  fun k => kernelEntry (scatterBlock A chunk b k) (scatterBlock B chunk b k) N

/-- The matrix `R` assembled by `MPI_Gather`: blocks of `chunk` matrices
concatenated in rank order. -/
def gatheredMatResult (A B : Nat → Nat → Nat → Nat) (N chunk : Nat) : Nat → Nat → Nat → Nat :=
  fun k => localMatResult A B N chunk (k / chunk) (k % chunk)

/-- The per-participant search loop (lines 120-124 and 148-152): fold over
the local contacts, appending each non-empty `check` result. -/
def localSearch (cs : List Contact) (search : List Char) : List Char :=
  cs.foldl (fun result c =>
    if check c search = [] then result else result ++ check c search) []

/-- The result rank 0 assembles (lines 113-131): its own search over indexes
`[0, min(chunk, total))`, then, in rank order, each worker's search result
over the contacts that worker parsed from its received framed text. -/
def assembledSearch (contacts : List Contact) (size : Nat) (search : List Char) : List Char :=
  (List.range' 1 (size - 1)).foldl
    (fun result i =>
      if localSearch (string_to_contacts (transfer_string
            (vector_to_string contacts (i * chunkOf contacts.length size)
              ((i + 1) * chunkOf contacts.length size)))) search = []
      then result
      else result ++ localSearch (string_to_contacts (transfer_string
            (vector_to_string contacts (i * chunkOf contacts.length size)
              ((i + 1) * chunkOf contacts.length size)))) search)
    (localSearch (contacts.take (min (chunkOf contacts.length size) contacts.length)) search)

/-- A contact that survives the whole distribute/parse pipeline: its encoded
line decodes back to itself and the framed transfer does not truncate it
(no NUL byte in either field). -/
def TransferSafe (c : Contact) : Prop :=
  LineSafe c ∧ ('\x00' : Char) ∉ c.name ∧ ('\x00' : Char) ∉ c.phone

instance (c : Contact) : Decidable (TransferSafe c) := by
  unfold TransferSafe; infer_instance

/-- Claim C4, counterexample: partition-invariance does not hold for every
dataset. With `S = 2` evenly dividing the 2-record phonebook
`[("x","0"), ("a,b","1")]`, the record `("a,b","1")` is re-parsed by its
worker as `("a","b,1")`, so the assembled result for query `"a,b"` is empty
while the unsplit search finds the record; a NUL byte in a field
(`("a\x00","1")`, query `"a"`) likewise truncates the framed transfer and
drops the record. -/
theorem partition_invariance_counterexample :
    assembledSearch [⟨"x".toList, "0".toList⟩, ⟨"a,b".toList, "1".toList⟩] 2 "a,b".toList
      ≠ localSearch [⟨"x".toList, "0".toList⟩, ⟨"a,b".toList, "1".toList⟩] "a,b".toList ∧
    assembledSearch [⟨"x".toList, "0".toList⟩, ⟨"a\x00".toList, "1".toList⟩] 2 "a".toList
      ≠ localSearch [⟨"x".toList, "0".toList⟩, ⟨"a\x00".toList, "1".toList⟩] "a".toList := by
  constructor
  · decide
  · decide

theorem localSearch_eq_flatten (cs : List Contact) (search : List Char) :
    localSearch cs search = (cs.map (fun x => check x search)).flatten := by
  suffices h : ∀ acc : List Char,
      cs.foldl (fun result c =>
        if check c search = [] then result else result ++ check c search) acc
        = acc ++ (cs.map (fun x => check x search)).flatten by
    simpa [localSearch] using h []
  induction cs with
  | nil => intro acc; simp
  | cons c cs ih =>
    intro acc
    rw [List.foldl_cons]
    by_cases hm : check c search = []
    · rw [if_pos hm, ih]
      simp [hm]
    · rw [if_neg hm, ih]
      simp

theorem foldl_append_if_nonempty (f : Nat → List Char) (l : List Nat) :
    ∀ acc : List Char,
      l.foldl (fun result i => if f i = [] then result else result ++ f i) acc
        = acc ++ (l.map f).flatten := by
  induction l with
  | nil => intro acc; simp
  | cons x xs ih =>
    intro acc
    rw [List.foldl_cons]
    by_cases hw : f x = []
    · rw [if_pos hw, ih]
      simp [hw]
    · rw [if_neg hw, ih]
      simp

theorem nul_not_mem_encodeList (cs : List Contact)
    (h : ∀ c ∈ cs, ('\x00' : Char) ∉ c.name ∧ ('\x00' : Char) ∉ c.phone) :
    ('\x00' : Char) ∉ encodeList cs := by
  intro hm
  unfold encodeList at hm
  rw [List.mem_flatten] at hm
  obtain ⟨l, hl, hml⟩ := hm
  rw [List.mem_map] at hl
  obtain ⟨c, hc, rfl⟩ := hl
  unfold contactLine at hml
  rcases List.mem_append.mp hml with h1 | h2
  · rcases List.mem_append.mp h1 with h3 | h4
    · rcases List.mem_append.mp h3 with h5 | h6
      · exact (h c hc).1 h5
      · exact absurd (List.mem_singleton.mp h6) (by decide)
    · exact (h c hc).2 h4
  · exact absurd (List.mem_singleton.mp h2) (by decide)

theorem take_slice_norm (xs : List Contact) (i c : Nat) :
    (xs.drop (i * c)).take (min xs.length ((i + 1) * c) - i * c)
      = (xs.drop (i * c)).take c := by
  rw [List.take_eq_take]
  simp only [List.length_drop]
  have h : (i + 1) * c = i * c + c := by ring
  omega

theorem slices_flatten_take (xs : List Contact) (c : Nat) :
    ∀ S : Nat,
      ((List.range' 0 S).map (fun i => (xs.drop (i * c)).take c)).flatten
        = xs.take (S * c) := by
  intro S
  induction S with
  | zero => simp
  | succ n ih =>
    have hconcat : List.range' 0 (n + 1) = List.range' 0 n ++ [n] := by
      have := @List.range'_concat 1 0 n
      simpa using this
    rw [hconcat, List.map_append, List.flatten_append, ih]
    have : (n + 1) * c = n * c + c := by ring
    rw [this, List.take_add xs (n * c) c]
    simp

theorem flatten_map_flatten (f : Contact → List Char) (L : List (List Contact)) :
    (L.map (fun s => (s.map f).flatten)).flatten = ((L.flatten).map f).flatten := by
  induction L with
  | nil => simp
  | cons s L ih => simp [ih]

theorem take_min_length (xs : List Contact) (c : Nat) :
    xs.take (min c xs.length) = xs.take c := by
  rw [List.take_eq_take]
  omega

/-- Claim C4, amended: partition-invariance holds unconditionally for the
matrix kernel (for every participant count evenly dividing `K`, the gathered
result agrees with the unsplit kernel at every global index), and for the
search kernel it holds for every participant count `S ≥ 1` provided every
record survives the wire format: comma-free name, newline-free fields,
NUL-free fields. Without that proviso it fails (see the counterexample). -/
theorem partition_invariance :
    (∀ (A B : Nat → Nat → Nat → Nat) (N K size : Nat), 1 ≤ size → size ∣ K →
      ∀ k, k < K → ∀ i j,
        gatheredMatResult A B N (K / size) k i j = fullMatResult A B N k i j) ∧
    (∀ (contacts : List Contact) (size : Nat) (search : List Char), 1 ≤ size →
      (∀ c ∈ contacts, TransferSafe c) →
      assembledSearch contacts size search = localSearch contacts search) := by
  constructor
  · intro A B N K size _ _ k _ i j
    have hsplit : k / (K / size) * (K / size) + k % (K / size) = k := by
      rw [Nat.mul_comm]
      exact Nat.div_add_mod k (K / size)
    simp [gatheredMatResult, localMatResult, scatterBlock, fullMatResult, hsplit]
  · intro contacts size search hS hW
    have hslice_mem : ∀ (s n : Nat) (x : Contact),
        x ∈ (contacts.drop s).take n → x ∈ contacts :=
      fun s n x hx => List.mem_of_mem_drop (List.mem_of_mem_take hx)
    have hparse : ∀ i : Nat,
        string_to_contacts (transfer_string
          (vector_to_string contacts (i * chunkOf contacts.length size)
            ((i + 1) * chunkOf contacts.length size)))
          = (contacts.drop (i * chunkOf contacts.length size)).take
              (chunkOf contacts.length size) := by
      intro i
      rw [vector_to_string_eq_encode_slice, take_slice_norm]
      rw [transfer_string_id _ (nul_not_mem_encodeList _
        (fun x hx => (hW x (hslice_mem _ _ x hx)).2))]
      exact string_to_contacts_encodeList _
        (fun x hx => (hW x (hslice_mem _ _ x hx)).1)
    unfold assembledSearch
    rw [foldl_append_if_nonempty (fun i =>
      localSearch (string_to_contacts (transfer_string
        (vector_to_string contacts (i * chunkOf contacts.length size)
          ((i + 1) * chunkOf contacts.length size)))) search)]
    have hworkers : (List.range' 1 (size - 1)).map (fun i =>
        localSearch (string_to_contacts (transfer_string
          (vector_to_string contacts (i * chunkOf contacts.length size)
            ((i + 1) * chunkOf contacts.length size)))) search)
        = (List.range' 1 (size - 1)).map (fun i =>
            (((contacts.drop (i * chunkOf contacts.length size)).take
              (chunkOf contacts.length size)).map (fun x => check x search)).flatten) := by
      apply List.map_congr_left
      intro i _
      rw [hparse i, localSearch_eq_flatten]
    rw [hworkers, take_min_length, localSearch_eq_flatten, localSearch_eq_flatten]
    have hpeel : List.range' 0 size = 0 :: List.range' 1 (size - 1) := by
      have h1 := List.range'_succ 0 (size - 1) 1
      have hs : size - 1 + 1 = size := by omega
      rw [hs] at h1
      simpa using h1
    have hL : ((List.range' 0 size).map (fun i =>
        (contacts.drop (i * chunkOf contacts.length size)).take
          (chunkOf contacts.length size))).flatten = contacts := by
      rw [slices_flatten_take]
      exact List.take_of_length_le
        (total_le_size_mul_chunk contacts.length size hS)
    have hmain : ((List.range' 0 size).map (fun i =>
        (((contacts.drop (i * chunkOf contacts.length size)).take
          (chunkOf contacts.length size)).map (fun x => check x search)).flatten)).flatten
        = ((contacts.map (fun x => check x search))).flatten := by
      have hmm : (List.range' 0 size).map (fun i =>
          (((contacts.drop (i * chunkOf contacts.length size)).take
            (chunkOf contacts.length size)).map (fun x => check x search)).flatten)
          = ((List.range' 0 size).map (fun i =>
              (contacts.drop (i * chunkOf contacts.length size)).take
                (chunkOf contacts.length size))).map
              (fun s => (s.map (fun x => check x search)).flatten) := by
        rw [List.map_map]
        rfl
      rw [hmm, flatten_map_flatten, hL]
    rw [hpeel] at hmain
    simp only [List.map_cons, List.flatten_cons, Nat.zero_mul, List.drop_zero] at hmain
    exact hmain

/-- Witness for C4: the matrix half at constant matrices with `K = 4`,
`S = 2`, `k = 3`, and the search half at the two-record example phonebook
with `S = 2`. -/
theorem partition_invariance_witness :
    gatheredMatResult (fun _ _ _ => 7) (fun _ _ _ => 13) 1 (4 / 2) 3 0 0
        = fullMatResult (fun _ _ _ => 7) (fun _ _ _ => 13) 1 3 0 0 ∧
    assembledSearch [⟨"Ann".toList, "123".toList⟩, ⟨"Bob".toList, "456".toList⟩] 2 "Bob".toList
        = localSearch [⟨"Ann".toList, "123".toList⟩, ⟨"Bob".toList, "456".toList⟩] "Bob".toList :=
  ⟨partition_invariance.1 (fun _ _ _ => 7) (fun _ _ _ => 13) 1 4 2
      (by decide) (by decide) 3 (by decide) 0 0,
   partition_invariance.2 _ 2 "Bob".toList (by decide) (by decide)⟩

end PPLab
